import Mathlib

/-!
Verification of the OpiWeb backend (a session-oriented trading gateway) against
its specification.  Python values are shallowly embedded: strings are lists of
characters, Python floats are modelled as rationals, JSON payloads as an
inductive type, mutable stores as explicit state passing, and the concurrent
take-profit monitor as a small-step transition system.  External capabilities
(Python's float() string parser, the eth_utils address checksummer, EIP-712
recovery) are parameters of the corresponding definitions.
-/

namespace OpiWeb

/-! ## Python strings modelled as lists of characters -/

abbrev Str := List Char

def pyLower (s : Str) : Str := s.map Char.toLower

def pyUpper (s : Str) : Str := s.map Char.toUpper

/-- The characters Python's str.strip() removes by default: space, tab,
newline, carriage return, vertical tab, form feed (codes 32 9 10 13 11 12). -/
def pyWs (c : Char) : Bool :=
  c.toNat = 32 || c.toNat = 9 || c.toNat = 10 || c.toNat = 13 ||
    c.toNat = 11 || c.toNat = 12

/-- Python str.strip(): drop whitespace from both ends. -/
def pyStrip (s : Str) : Str := (s.dropWhile pyWs).rdropWhile pyWs

/-- Contiguous-substring test (Python's `needle in hay`). -/
def strHasSub (needle : Str) : Str → Bool
  | [] => needle.isEmpty
  | c :: rest => needle.isPrefixOf (c :: rest) || strHasSub needle rest

/-! ## Decimal printing and parsing of integers -/

def digitChar (d : Nat) : Char := Char.ofNat (48 + d)

def digitVal (c : Char) : Nat := c.toNat - 48

/-- Decimal digits, on fuel so that the kernel can evaluate it. -/
def natStrGo : Nat → Nat → Str
  | 0, _ => []
  | fuel + 1, n =>
    if n < 10 then [digitChar n]
    else natStrGo fuel (n / 10) ++ [digitChar (n % 10)]

/-- Decimal digits of a natural number (Python str(n) for n ≥ 0). -/
def natStr (n : Nat) : Str := natStrGo (n + 1) n

/-- Python str() of an int. -/
def intStr (n : ℤ) : Str :=
  if n < 0 then '-' :: natStr n.natAbs else natStr n.toNat

def parseDigits (l : Str) : Nat := l.foldl (fun a c => a * 10 + digitVal c) 0

/-- ASCII decimal digit. -/
def isDigitCh (c : Char) : Bool := 48 ≤ c.toNat && c.toNat ≤ 57

def allDigits (l : Str) : Bool := l.all isDigitCh

/-! ## JSON-like Python values (payloads from upstream services) -/

inductive Json where
  | null
  | bool (b : Bool)
  | num (q : ℚ)
  | str (s : Str)
  | arr (xs : List Json)
  | obj (kvs : List (Str × Json))

/-! ## tp_engine.py: fill inference

`_as_float` delegates the parse of numeric strings to Python's float();
that external parser is the parameter `sp`. -/

def pyRemoveCommas (s : Str) : Str := s.filter (fun c => c ≠ ',')

/-- tp_engine._as_float: None for null; numbers (and bools, which are ints in
Python) cast to float; strings have commas removed, are stripped, and are fed
to float() when non-empty; containers give None. -/
def as_float (sp : Str → Option ℚ) : Json → Option ℚ
  | .null => none
  | .num q => some q
  | .bool b => some (if b then 1 else 0)
  | .str s =>
    let cleaned := pyStrip (pyRemoveCommas s)
    if cleaned = [] then none else sp cleaned
  | .arr _ => none
  | .obj _ => none

mutual

/-- tp_engine._collect_numeric_values: depth-first collection of the numeric
values sitting under keys whose lowercased name is in `keys`. -/
def collectNumeric (sp : Str → Option ℚ) (keys : List Str) : Json → List ℚ
  | .obj kvs => collectNumericObj sp keys kvs
  | .arr xs => collectNumericArr sp keys xs
  | _ => []

def collectNumericObj (sp : Str → Option ℚ) (keys : List Str) :
    List (Str × Json) → List ℚ
  | [] => []
  | (k, v) :: rest =>
    (if keys.contains (pyLower k) then (as_float sp v).toList else [])
      ++ collectNumeric sp keys v ++ collectNumericObj sp keys rest

def collectNumericArr (sp : Str → Option ℚ) (keys : List Str) :
    List Json → List ℚ
  | [] => []
  | v :: rest => collectNumeric sp keys v ++ collectNumericArr sp keys rest

end

def kwStatus : Str := "status".toList
def kwState : Str := "state".toList
def kwOrderStatus : Str := "order_status".toList

def statusKeys : List Str := [kwStatus, kwState, kwOrderStatus]

mutual

/-- tp_engine._collect_status: first string value under a status-like key, in
depth-first order; an empty string found in a nested frame is falsy for the
caller (`if nested:`), so the search continues past it. -/
def collectStatus : Json → Option Str
  | .obj kvs => collectStatusObj kvs
  | .arr xs => collectStatusArr xs
  | _ => none

def collectStatusObj : List (Str × Json) → Option Str
  | [] => none
  | (k, v) :: rest =>
    match v with
    | .str s =>
      if statusKeys.contains (pyLower k) then some (pyLower s)
      else collectStatusObj rest
    | _ =>
      match collectStatus v with
      | some s => if s = [] then collectStatusObj rest else some s
      | none => collectStatusObj rest

def collectStatusArr : List Json → Option Str
  | [] => none
  | v :: rest =>
    match collectStatus v with
    | some s => if s = [] then collectStatusArr rest else some s
    | none => collectStatusArr rest

end

def kwFilled : Str := "filled".toList
def kwPartial : Str := "partial".toList

def pctKeys : List Str :=
  ["filledpct", "filled_pct", "fill_pct", "filledpercentage", "completion"].map
    String.toList

def amountKeys : List Str :=
  ["filled", "filledsize", "filled_size", "sizematched", "size_matched",
   "matchedsize", "matched_size", "filledamount", "filled_amount",
   "executedsize", "executed_size"].map String.toList

/-- Python's two-argument max (returns the first argument on ties). -/
def pyMax (a b : ℚ) : ℚ := if b ≤ a then a else b

/-- Python's two-argument min (returns the first argument on ties). -/
def pyMin (a b : ℚ) : ℚ := if a ≤ b then a else b

theorem pyMax_eq (a b : ℚ) : pyMax a b = max a b := by
  unfold pyMax
  rw [max_def]
  rcases lt_trichotomy a b with h | h | h
  · rw [if_neg (not_le.mpr h), if_pos h.le]
  · simp [h]
  · rw [if_pos h.le, if_neg (not_le.mpr h)]

theorem pyMin_eq (a b : ℚ) : pyMin a b = min a b := by
  unfold pyMin
  rw [min_def]

theorem pyMax_le (a b c : ℚ) (h1 : a ≤ c) (h2 : b ≤ c) : pyMax a b ≤ c := by
  rw [pyMax_eq]; exact max_le h1 h2

theorem le_pyMax_left (a b : ℚ) : a ≤ pyMax a b := by
  rw [pyMax_eq]; exact le_max_left a b

/-- The `if status_text and "filled" in status_text and "partial" not in
status_text` test at the top of extract_filled_tokens. -/
def statusFires : Option Str → Bool
  | some s => !s.isEmpty && strHasSub kwFilled s && !strHasSub kwPartial s
  | none => false

/-- The percentage loop of extract_filled_tokens: the first value in [0,1]
scales directly, the first in (1,100] is a percentage; both are clamped. -/
def pctResult (entry : ℚ) : List ℚ → Option ℚ
  | [] => none
  | v :: vs =>
    if 0 ≤ v ∧ v ≤ 1 then some (pyMax 0 (pyMin entry (v * entry)))
    else if 1 < v ∧ v ≤ 100 then some (pyMax 0 (pyMin entry (v / 100 * entry)))
    else pctResult entry vs

/-- A single amount value: scaled down by 1e6 when it exceeds 1000·entry. -/
def scaleAmount (entry v : ℚ) : ℚ := if entry * 1000 < v then v / 1000000 else v

/-- The amount loop: running maximum of the individually scaled values. -/
def bestAmount (entry : ℚ) (l : List ℚ) : ℚ :=
  l.foldl (fun best v =>
    let val := scaleAmount entry v
    if best < val then val else best) 0

/-- tp_engine.extract_filled_tokens. -/
def extract_filled_tokens (sp : Str → Option ℚ) (p : Json) (entry : ℚ) : ℚ :=
  if statusFires (collectStatus p) then entry
  else
    match pctResult entry (collectNumeric sp pctKeys p) with
    | some r => r
    | none => pyMax 0 (pyMin entry (bestAmount entry (collectNumeric sp amountKeys p)))

/-- A degenerate instantiation of Python's float() parser, usable when the
payloads under study carry no numeric strings. -/
def spNone : Str → Option ℚ := fun _ => none

theorem clamp_bounds (entry x : ℚ) (h : 0 ≤ entry) :
    0 ≤ pyMax 0 (pyMin entry x) ∧ pyMax 0 (pyMin entry x) ≤ entry := by
  refine ⟨le_pyMax_left 0 _, pyMax_le _ _ _ h ?_⟩
  rw [pyMin_eq]; exact min_le_left _ _

theorem pctResult_bounds (entry : ℚ) (h : 0 ≤ entry) :
    ∀ l r, pctResult entry l = some r → 0 ≤ r ∧ r ≤ entry := by
  intro l
  induction l with
  | nil => intro r hr; exact absurd hr (by simp [pctResult])
  | cons v vs ih =>
    intro r hr
    unfold pctResult at hr
    split at hr
    · simp only [Option.some.injEq] at hr
      subst hr; exact clamp_bounds entry _ h
    · split at hr
      · simp only [Option.some.injEq] at hr
        subst hr; exact clamp_bounds entry _ h
      · exact ih r hr

/-- C3: for every payload and positive entry size, extract_filled_tokens
returns a value in the closed interval [0, entry size]. -/
theorem extract_filled_tokens_in_range (sp : Str → Option ℚ) (p : Json) (S : ℚ)
    (hS : 0 < S) :
    0 ≤ extract_filled_tokens sp p S ∧ extract_filled_tokens sp p S ≤ S := by
  have h0 : (0 : ℚ) ≤ S := hS.le
  unfold extract_filled_tokens
  split
  · exact ⟨h0, le_refl S⟩
  · split
    · next r hr => exact pctResult_bounds S h0 _ r hr
    · exact clamp_bounds S _ h0

theorem extract_filled_tokens_in_range_witness :
    0 < (10 : ℚ) ∧
      (0 ≤ extract_filled_tokens spNone (.obj [(kwStatus, .str "FILLED".toList)]) 10 ∧
        extract_filled_tokens spNone (.obj [(kwStatus, .str "FILLED".toList)]) 10 ≤ 10) :=
  ⟨by norm_num,
   extract_filled_tokens_in_range spNone (.obj [(kwStatus, .str "FILLED".toList)]) 10
     (by norm_num)⟩

/-! ### C4: where the 1e6 scaling is applied in the amount branch -/

/-- Running maximum of a list of floats against an initial 0. -/
def runMax (l : List ℚ) : ℚ :=
  l.foldl (fun best v => if best < v then v else best) 0

/-- Modelled from the spec sentence of claim C4 (not from the source): take
the maximum of the collected values first, scale that single maximum by 1e6
when it exceeds 1000·entry, then clamp. -/
def bestAmountSpecC4 (entry : ℚ) (l : List ℚ) : ℚ :=
  if entry * 1000 < runMax l then runMax l / 1000000 else runMax l

/-- extract_filled_tokens as claim C4 describes its amount branch. -/
def extract_filled_tokens_specC4 (sp : Str → Option ℚ) (p : Json) (entry : ℚ) : ℚ :=
  if statusFires (collectStatus p) then entry
  else
    match pctResult entry (collectNumeric sp pctKeys p) with
    | some r => r
    | none =>
      pyMax 0 (pyMin entry (bestAmountSpecC4 entry (collectNumeric sp amountKeys p)))

def c4Payload : Json :=
  .obj [(kwFilled, .num 9), ("filled_size".toList, .num 5000000)]

/-- C4 counterexample: on the payload with amounts 9 and 5000000 at entry
size 10, the code scales each value before maximizing and returns 9, while
the claim's max-then-scale procedure returns 5. -/
theorem extract_amount_scaling_counterexample :
    extract_filled_tokens spNone c4Payload 10 = 9 ∧
      extract_filled_tokens_specC4 spNone c4Payload 10 = 5 ∧
      extract_filled_tokens spNone c4Payload 10 ≠
        extract_filled_tokens_specC4 spNone c4Payload 10 := by
  have hs : statusFires (collectStatus c4Payload) = false := by decide
  have hcp : collectNumeric spNone pctKeys c4Payload = [] := by decide
  have hc : collectNumeric spNone amountKeys c4Payload = [9, 5000000] := by decide
  have h1 : extract_filled_tokens spNone c4Payload 10 = 9 := by
    unfold extract_filled_tokens
    rw [hs, hcp, hc]
    norm_num [pctResult, bestAmount, scaleAmount, pyMax, pyMin]
  have h2 : extract_filled_tokens_specC4 spNone c4Payload 10 = 5 := by
    unfold extract_filled_tokens_specC4
    rw [hs, hcp, hc]
    norm_num [pctResult, bestAmountSpecC4, runMax, pyMax, pyMin]
  refine ⟨h1, h2, ?_⟩
  rw [h1, h2]; norm_num

theorem bestAmount_eq_runMax_map (entry : ℚ) (l : List ℚ) :
    bestAmount entry l = runMax (l.map (scaleAmount entry)) := by
  unfold bestAmount runMax
  rw [List.foldl_map]

/-- C4 amended: in the amount branch (no filled status, no deciding
percentage value), the code scales each collected value individually --
dividing a value by 1e6 exactly when that value exceeds 1000·entry -- and
only then takes the running maximum, clamped to [0, entry]. -/
theorem extract_amount_scales_each_value (sp : Str → Option ℚ) (p : Json) (S : ℚ)
    (hstatus : statusFires (collectStatus p) = false)
    (hpct : pctResult S (collectNumeric sp pctKeys p) = none) :
    extract_filled_tokens sp p S =
      pyMax 0 (pyMin S (runMax ((collectNumeric sp amountKeys p).map (scaleAmount S)))) := by
  unfold extract_filled_tokens
  rw [hstatus, hpct, ← bestAmount_eq_runMax_map]
  simp

theorem extract_amount_scales_each_value_witness :
    statusFires (collectStatus c4Payload) = false ∧
      pctResult 10 (collectNumeric spNone pctKeys c4Payload) = none ∧
      extract_filled_tokens spNone c4Payload 10 =
        pyMax 0 (pyMin 10 (runMax ((collectNumeric spNone amountKeys c4Payload).map
          (scaleAmount 10)))) := by
  have hs : statusFires (collectStatus c4Payload) = false := by decide
  have hp : pctResult 10 (collectNumeric spNone pctKeys c4Payload) = none := by
    have hcp : collectNumeric spNone pctKeys c4Payload = [] := by decide
    rw [hcp, pctResult]
  exact ⟨hs, hp, extract_amount_scales_each_value spNone c4Payload 10 hs hp⟩

/-! ## store.py: nonce table (InMemoryStore.consume_nonce) -/

structure NonceRecord where
  nonce : Str
  message : Str
  created_at : ℚ
  expires_at : ℚ
deriving DecidableEq

/-- The nonce table keyed by lowercased address (a Python dict as a map). -/
def NonceStore := Str → Option NonceRecord

/-- dict.pop(key, None). -/
def nonceErase (s : NonceStore) (key : Str) : NonceStore :=
  fun k => if k = key then none else s k

/-- store.InMemoryStore.consume_nonce; `now` is the time.time() reading taken
during the call.  Returns the consumed record (if any) and the table state
afterwards. -/
def consume_nonce (s : NonceStore) (now : ℚ) (address : Str) (nonce : Str) :
    Option NonceRecord × NonceStore :=
  let key := pyLower address
  match s key with
  | none => (none, s)
  | some record =>
    if record.expires_at < now then (none, nonceErase s key)
    else if record.nonce ≠ nonce then (none, s)
    else (some record, nonceErase s key)

def c5Record : NonceRecord :=
  { nonce := "aabb".toList, message := [], created_at := 0, expires_at := 100 }

def c5Store : NonceStore :=
  fun k => if k = "0xab".toList then some c5Record else none

/-- C5 counterexample: with a live record for 0xab holding nonce "aabb",
submitting the wrong nonce "zz" at time 50 returns none but does NOT delete
the record -- the table still holds it and the correct nonce still consumes
afterwards, contradicting the claim that a mismatch deletes the record. -/
theorem consume_nonce_mismatch_keeps_record :
    (consume_nonce c5Store 50 "0xAB".toList "zz".toList).1 = none ∧
      (consume_nonce c5Store 50 "0xAB".toList "zz".toList).2 "0xab".toList =
        some c5Record ∧
      (consume_nonce c5Store 50 "0xAB".toList "aabb".toList).1 = some c5Record := by
  refine ⟨?_, ?_, ?_⟩ <;> decide

/-- C5 amended: consume_nonce returns and deletes the record exactly when it
is non-expired and the submitted nonce matches; an expired record is silently
deleted with result none; a nonce mismatch on a live record returns none and
leaves the table unchanged (the record is NOT deleted); and a successfully
consumed nonce cannot be consumed a second time. -/
theorem consume_nonce_spec (s : NonceStore) (now now2 : ℚ)
    (address nonce n2 : Str) :
    (∀ r, s (pyLower address) = some r → r.expires_at < now →
      consume_nonce s now address nonce = (none, nonceErase s (pyLower address))) ∧
    (∀ r, s (pyLower address) = some r → ¬ r.expires_at < now →
      r.nonce ≠ nonce →
      consume_nonce s now address nonce = (none, s)) ∧
    (∀ r, s (pyLower address) = some r → ¬ r.expires_at < now →
      r.nonce = nonce →
      consume_nonce s now address nonce =
        (some r, nonceErase s (pyLower address))) ∧
    (∀ r, (consume_nonce s now address nonce).1 = some r →
      (consume_nonce (consume_nonce s now address nonce).2 now2 address n2).1 =
        none) := by
  refine ⟨?_, ?_, ?_, ?_⟩
  · intro r hr hexp
    simp [consume_nonce, hr, hexp]
  · intro r hr hexp hne
    simp [consume_nonce, hr, hexp, hne]
  · intro r hr hexp heq
    simp [consume_nonce, hr, hexp, heq]
  · intro r h1
    rcases hsk : s (pyLower address) with _ | record
    · simp [consume_nonce, hsk] at h1
    · by_cases hexp : record.expires_at < now
      · simp [consume_nonce, hsk, hexp] at h1
      · by_cases hne : record.nonce = nonce
        · simp [consume_nonce, hsk, hexp, hne, nonceErase]
        · simp [consume_nonce, hsk, hexp, hne] at h1

theorem consume_nonce_spec_witness :
    c5Store (pyLower "0xAB".toList) = some c5Record ∧
      ¬ c5Record.expires_at < (50 : ℚ) ∧
      c5Record.nonce ≠ "zz".toList ∧
      consume_nonce c5Store 50 "0xAB".toList "zz".toList = (none, c5Store) :=
  ⟨by decide, by decide, by decide,
   (consume_nonce_spec c5Store 50 50 "0xAB".toList "zz".toList []).2.1 c5Record
     (by decide) (by decide) (by decide)⟩

/-! ## store.py: rate limiter (InMemoryStore.allow_rate_limit) -/

/-- One call of InMemoryStore.allow_rate_limit on one bucket: prune the
timestamps strictly older than now − window, deny when the pruned bucket is
already at capacity, otherwise append now and admit. -/
def allow_rate_limit (entries : List ℚ) (now : ℚ) (maxRequests : Nat)
    (window : ℚ) : Bool × List ℚ :=
  let kept := entries.filter (fun ts => now - window ≤ ts)
  if maxRequests ≤ kept.length then (false, kept)
  else (true, kept ++ [now])

/-- The timestamps a sequence of calls at the given times admits, starting
from the given bucket state. -/
def rlAdmitted (maxRequests : Nat) (window : ℚ) :
    List ℚ → List ℚ → List ℚ
  | _, [] => []
  | bucket, t :: ts =>
    let step := allow_rate_limit bucket t maxRequests window
    if step.1 then t :: rlAdmitted maxRequests window step.2 ts
    else rlAdmitted maxRequests window step.2 ts

/-- Number of timestamps falling in the sliding window [a, a + window]. -/
def cntWindow (window a : ℚ) (l : List ℚ) : Nat :=
  (l.filter (fun t => decide (a ≤ t ∧ t ≤ a + window))).length

theorem rl_aux (maxRequests : Nat) (window : ℚ) (hW : 0 ≤ window) :
    ∀ (times A : List ℚ) (tp : ℚ),
      List.Sorted (· ≤ ·) times → (∀ t ∈ times, tp ≤ t) → (∀ x ∈ A, x ≤ tp) →
      (∀ b, cntWindow window b A ≤ maxRequests) →
      ∀ a, cntWindow window a
          (A ++ rlAdmitted maxRequests window
            (A.filter (fun x => decide (tp - window ≤ x))) times) ≤ maxRequests := by
  intro times
  induction times with
  | nil => intro A tp _ _ _ h4 a; simpa [rlAdmitted] using h4 a
  | cons t ts ih =>
    intro A tp hsorted hlb hub h4 a
    have htpt : tp ≤ t := hlb t (by simp)
    have hsc := List.sorted_cons.mp hsorted
    have hkept :
        (A.filter (fun x => decide (tp - window ≤ x))).filter
            (fun x => decide (t - window ≤ x)) =
          A.filter (fun x => decide (t - window ≤ x)) := by
      rw [List.filter_filter]
      refine List.filter_congr ?_
      intro x _
      by_cases hcase : t - window ≤ x
      · have h2 : tp - window ≤ x := le_trans (by linarith) hcase
        simp [hcase, h2]
      · simp [hcase]
    have hub' : ∀ x ∈ A, x ≤ t := fun x hx => le_trans (hub x hx) htpt
    by_cases hd : maxRequests ≤ (A.filter (fun x => decide (t - window ≤ x))).length
    · -- denied: the bucket is saved pruned, nothing admitted at t
      have hstep : allow_rate_limit
          (A.filter (fun x => decide (tp - window ≤ x))) t maxRequests window =
          (false, A.filter (fun x => decide (t - window ≤ x))) := by
        simp only [allow_rate_limit, hkept]
        rw [if_pos hd]
      have hunf : rlAdmitted maxRequests window
          (A.filter (fun x => decide (tp - window ≤ x))) (t :: ts) =
          rlAdmitted maxRequests window
            (A.filter (fun x => decide (t - window ≤ x))) ts := by
        simp only [rlAdmitted]
        rw [hstep]
        rfl
      rw [hunf]
      exact ih A t hsc.2 hsc.1 hub' h4 a
    · -- admitted: t is appended to the bucket and to the admitted list
      have hsingle : [t].filter (fun x => decide (t - window ≤ x)) = [t] := by
        have h1 : t - window ≤ t := by linarith
        simp only [List.filter_cons, List.filter_nil, decide_eq_true_eq]
        rw [if_pos h1]
      have hbucket :
          A.filter (fun x => decide (t - window ≤ x)) ++ [t] =
            (A ++ [t]).filter (fun x => decide (t - window ≤ x)) := by
        rw [List.filter_append, hsingle]
      have hstep : allow_rate_limit
          (A.filter (fun x => decide (tp - window ≤ x))) t maxRequests window =
          (true, A.filter (fun x => decide (t - window ≤ x)) ++ [t]) := by
        simp only [allow_rate_limit, hkept]
        rw [if_neg hd]
      have hunf : rlAdmitted maxRequests window
          (A.filter (fun x => decide (tp - window ≤ x))) (t :: ts) =
          t :: rlAdmitted maxRequests window
            (A.filter (fun x => decide (t - window ≤ x)) ++ [t]) ts := by
        simp only [rlAdmitted]
        rw [hstep]
        rfl
      have h4' : ∀ b, cntWindow window b (A ++ [t]) ≤ maxRequests := by
        intro b
        unfold cntWindow
        rw [List.filter_append, List.length_append]
        by_cases hbt : b ≤ t ∧ t ≤ b + window
        · have hmono :
              (A.filter (fun x => decide (b ≤ x ∧ x ≤ b + window))).length ≤
                (A.filter (fun x => decide (t - window ≤ x))).length := by
            refine List.Sublist.length_le (List.monotone_filter_right A ?_)
            intro x hx
            simp only [decide_eq_true_eq] at hx ⊢
            linarith [hx.1, hx.2, hbt.2]
          have hft : [t].filter (fun x => decide (b ≤ x ∧ x ≤ b + window)) = [t] := by
            simp only [List.filter_cons, List.filter_nil, decide_eq_true_eq]
            rw [if_pos hbt]
          rw [hft]
          simp only [List.length_singleton]
          omega
        · have hft : [t].filter (fun x => decide (b ≤ x ∧ x ≤ b + window)) = [] := by
            simp only [List.filter_cons, List.filter_nil, decide_eq_true_eq]
            rw [if_neg hbt]
          rw [hft]
          have hb := h4 b
          unfold cntWindow at hb
          simpa using hb
      have hub2 : ∀ x ∈ A ++ [t], x ≤ t := by
        intro x hx
        rcases List.mem_append.mp hx with hx | hx
        · exact hub' x hx
        · simp at hx; exact le_of_eq hx
      rw [hunf, hbucket, List.append_cons]
      exact ih (A ++ [t]) t hsc.2 hsc.1 hub2 h4' a

/-- C7: starting from an empty bucket, any nondecreasing sequence of
allow_rate_limit calls admits at most maxRequests timestamps inside any
sliding window [a, a + window]; each call prunes the entries older than
now − window, denies when the pruned count is at capacity, and otherwise
appends now and admits. -/
theorem allow_rate_limit_window_bound (maxRequests : Nat) (window : ℚ)
    (times : List ℚ) (a : ℚ) (hW : 0 ≤ window)
    (hsorted : List.Sorted (· ≤ ·) times) :
    cntWindow window a (rlAdmitted maxRequests window [] times) ≤ maxRequests := by
  cases times with
  | nil => simp [rlAdmitted, cntWindow]
  | cons t ts =>
    have h := rl_aux maxRequests window hW (t :: ts) [] t hsorted
      (by
        intro u hu
        rcases List.mem_cons.mp hu with h | h
        · exact le_of_eq h.symm
        · exact (List.sorted_cons.mp hsorted).1 u h)
      (by intro x hx; exact absurd hx (List.not_mem_nil x))
      (by intro b; simp [cntWindow])
      a
    simpa using h

theorem allow_rate_limit_window_bound_witness :
    0 ≤ (10 : ℚ) ∧ List.Sorted (· ≤ ·) [(0 : ℚ), 1, 2] ∧
      cntWindow 10 0 (rlAdmitted 2 10 [] [0, 1, 2]) ≤ 2 :=
  ⟨by norm_num, by norm_num [List.sorted_cons],
   allow_rate_limit_window_bound 2 10 [0, 1, 2] 0 (by norm_num)
     (by norm_num [List.sorted_cons])⟩

/-! ## tp_engine.TpEngine.get_status (claim C10)

Only the owner field of an arm record bears on the isolation property; the
other fields of the stored dict are omitted from this projection. -/

structure ArmRec where
  eoa_address : Option Str
deriving DecidableEq

/-- `value or ""` on an optional string. -/
def optStr : Option Str → Str
  | none => []
  | some s => s

theorem optStr_some (s : Str) : optStr (some s) = s := rfl

/-- store.InMemoryStore.get_tp_arms_for_user: all arms whose lowercased owner
matches the lowercased requester address. -/
def get_tp_arms_for_user (arms : List (Str × ArmRec)) (eoa : Str) : List ArmRec :=
  ((arms.map Prod.snd).filter
    (fun arm => pyLower (optStr arm.eoa_address) == pyLower eoa))

/-- tp_engine.TpEngine.get_status.  A non-empty arm_id is looked up directly
(`if arm_id:` is Python truthiness, so an empty arm_id falls through to the
per-user listing); a missing arm or a foreign owner gives the empty list. -/
def tp_get_status (arms : List (Str × ArmRec)) (eoa : Str) (armId : Option Str) :
    List ArmRec :=
  if optStr armId ≠ [] then
    match arms.lookup (optStr armId) with
    | none => []
    | some arm =>
      if pyLower (optStr arm.eoa_address) ≠ pyLower eoa then []
      else [arm]
  else get_tp_arms_for_user arms eoa

/-- C10: with a non-empty arm_id, get_status returns the singleton [arm] only
when the arm is stored under that id and its recorded owner equals the
requester case-insensitively; when the arm exists but is owned by a different
address, the result is empty, so the endpoint never reveals a foreign arm. -/
theorem tp_get_status_isolation (arms : List (Str × ArmRec)) (eoa aid : Str)
    (hne : aid ≠ []) :
    (∀ arm, tp_get_status arms eoa (some aid) = [arm] →
      arms.lookup aid = some arm ∧
        pyLower (optStr arm.eoa_address) = pyLower eoa) ∧
    (∀ arm, arms.lookup aid = some arm →
      pyLower (optStr arm.eoa_address) ≠ pyLower eoa →
      tp_get_status arms eoa (some aid) = []) := by
  constructor
  · intro arm harm
    simp only [tp_get_status, optStr_some] at harm
    rw [if_pos hne] at harm
    cases hl : arms.lookup aid with
    | none => simp only [hl] at harm; exact absurd harm (by simp)
    | some found =>
      simp only [hl] at harm
      by_cases howner : pyLower (optStr found.eoa_address) ≠ pyLower eoa
      · rw [if_pos howner] at harm; exact absurd harm (by simp)
      · rw [if_neg howner] at harm
        simp only [List.cons.injEq, and_true] at harm
        subst harm
        exact ⟨rfl, not_not.mp howner⟩
  · intro arm hl howner
    simp only [tp_get_status, optStr_some]
    rw [if_pos hne]
    simp only [hl]
    rw [if_pos howner]

def c10Arm : ArmRec := { eoa_address := some "0xAA".toList }

theorem tp_get_status_isolation_witness :
    "tp_1".toList ≠ ([] : Str) ∧
      [("tp_1".toList, c10Arm)].lookup "tp_1".toList = some c10Arm ∧
      pyLower (optStr c10Arm.eoa_address) ≠ pyLower "0xBB".toList ∧
      tp_get_status [("tp_1".toList, c10Arm)] "0xBB".toList (some "tp_1".toList) = [] :=
  ⟨by decide, by decide, by decide,
   (tp_get_status_isolation [("tp_1".toList, c10Arm)] "0xBB".toList "tp_1".toList
       (by decide)).2 c10Arm (by decide) (by decide)⟩

/-! ## resolver.py: TradingContextResolver.resolve (claim C9) -/

def proxyKeys : List Str :=
  ["proxy", "proxywallet", "proxy_wallet", "proxyaddress", "proxy_address",
   "safe", "safeaddress", "safe_address"].map String.toList

/-- The walker's key normalisation: str(key).replace("-","_").lower(). -/
def pyNormKey (k : Str) : Str :=
  pyLower (k.map (fun c => if c = '-' then '_' else c))

def isHexDigitPy (c : Char) : Bool :=
  c.isDigit || ('a' ≤ c && c ≤ 'f') || ('A' ≤ c && c ≤ 'F')

/-- A match of the regex 0x[a-fA-F0-9]{40} anchored at the head. -/
def addrAt : Str → Option Str
  | '0' :: 'x' :: rest =>
    let h := rest.take 40
    if h.length = 40 && h.all isHexDigitPy then some ('0' :: 'x' :: h) else none
  | _ => none

/-- Leftmost match of the address regex anywhere in the string
(re.search semantics). -/
def findAddrMatch : Str → Option Str
  | [] => none
  | c :: rest =>
    match addrAt (c :: rest) with
    | some m => some m
    | none => findAddrMatch rest

/-- resolver._normalize_addr: only strings qualify; strip; accept the whole
string when is_address (the eth_utils capability isAddr) holds, else the
first embedded 0x-hex-40 substring when is_address holds on it. -/
def resolverNormalizeAddr (isAddr : Str → Bool) : Json → Option Str
  | .str s =>
    let t := pyStrip s
    if isAddr t then some t
    else
      match findAddrMatch t with
      | some m => if isAddr m then some m else none
      | none => none
  | _ => none

/-- Python truthiness of an optional string (None and "" are falsy). -/
def pyTruthy : Option Str → Bool
  | none => false
  | some s => !s.isEmpty

mutual

/-- resolver._find_proxy_in_obj: first address under a proxy-like key that
differs from the EOA, depth-first; falsy nested results are skipped. -/
def findProxyInObj (isAddr : Str → Bool) (eoaLower : Str) : Json → Option Str
  | .obj kvs => findProxyObj isAddr eoaLower kvs
  | .arr xs => findProxyArr isAddr eoaLower xs
  | _ => none

def findProxyObj (isAddr : Str → Bool) (eoaLower : Str) :
    List (Str × Json) → Option Str
  | [] => none
  | (k, v) :: rest =>
    let addr := resolverNormalizeAddr isAddr v
    if pyTruthy addr && proxyKeys.contains (pyNormKey k)
        && !(pyLower (optStr addr) == eoaLower) then addr
    else
      match findProxyInObj isAddr eoaLower v with
      | some n => if n = [] then findProxyObj isAddr eoaLower rest else some n
      | none => findProxyObj isAddr eoaLower rest

def findProxyArr (isAddr : Str → Bool) (eoaLower : Str) :
    List Json → Option Str
  | [] => none
  | v :: rest =>
    match findProxyInObj isAddr eoaLower v with
    | some n => if n = [] then findProxyArr isAddr eoaLower rest else some n
    | none => findProxyArr isAddr eoaLower rest

end

mutual

/-- resolver._find_any_alt_address: first address anywhere in the blob that
differs from the EOA. -/
def findAnyAlt (isAddr : Str → Bool) (eoaLower : Str) : Json → Option Str
  | .obj kvs => findAnyAltObj isAddr eoaLower kvs
  | .arr xs => findAnyAltArr isAddr eoaLower xs
  | _ => none

def findAnyAltObj (isAddr : Str → Bool) (eoaLower : Str) :
    List (Str × Json) → Option Str
  | [] => none
  | (_, v) :: rest =>
    let addr := resolverNormalizeAddr isAddr v
    if pyTruthy addr && !(pyLower (optStr addr) == eoaLower) then addr
    else
      match findAnyAlt isAddr eoaLower v with
      | some n => if n = [] then findAnyAltObj isAddr eoaLower rest else some n
      | none => findAnyAltObj isAddr eoaLower rest

def findAnyAltArr (isAddr : Str → Bool) (eoaLower : Str) :
    List Json → Option Str
  | [] => none
  | v :: rest =>
    match findAnyAlt isAddr eoaLower v with
    | some n => if n = [] then findAnyAltArr isAddr eoaLower rest else some n
    | none => findAnyAltArr isAddr eoaLower rest

end

/-- The fields of the resolver's context that bear on claim C9 (chain_id,
exchange_address, dome_wallet and wallet_summary are omitted). -/
structure TradingCtx where
  eoa_address : Str
  trading_address : Str
  funder_address : Option Str
  signature_type : ℤ
  mode : Str
  resolver_warning : Option Str
deriving DecidableEq

def modeEoa : Str := "eoa".toList
def modeProxy : Str := "proxy".toList

/-- resolver.TradingContextResolver.resolve.  The Dome wallet-metadata client
is a parameter: none models an unavailable client (constructor failure),
some (.error e) a get_wallet call that raises (captured as resolver_warning),
some (.ok blob) the fetched wallet blob. -/
def resolve (isAddr : Str → Bool) (dome : Option (Except Str Json)) (eoa : Str) :
    TradingCtx :=
  let ctx : TradingCtx :=
    { eoa_address := eoa, trading_address := eoa, funder_address := none,
      signature_type := 0, mode := modeEoa, resolver_warning := none }
  match dome with
  | none => ctx
  | some (.error e) => { ctx with resolver_warning := some e }
  | some (.ok wallet) =>
    let eoaLower := pyLower eoa
    let proxy :=
      match findProxyInObj isAddr eoaLower wallet with
      | some p => if p = [] then findAnyAlt isAddr eoaLower wallet else some p
      | none => findAnyAlt isAddr eoaLower wallet
    match proxy with
    | some p =>
      if p ≠ [] && !(pyLower p == eoaLower) then
        { ctx with trading_address := p, funder_address := some p,
                   signature_type := 2, mode := modeProxy }
      else ctx
    | none => ctx

/-- The conjunction of invariants claim C9 states about a trading context. -/
def ctxInvariant (c : TradingCtx) : Prop :=
  (c.signature_type = 0 ↔ c.mode = modeEoa) ∧
  (c.signature_type = 2 ↔ c.mode = modeProxy) ∧
  (c.mode = modeProxy → c.funder_address = some c.trading_address ∧
    pyLower c.trading_address ≠ pyLower c.eoa_address) ∧
  (c.mode = modeEoa → c.trading_address = c.eoa_address ∧
    c.funder_address = none)

theorem modeEoa_ne_modeProxy : modeEoa ≠ modeProxy := by decide

theorem ctxInvariant_eoa (eoa : Str) (w : Option Str) :
    ctxInvariant (TradingCtx.mk eoa eoa none 0 modeEoa w) := by
  refine ⟨by simp, ⟨?_, ?_⟩, ?_, fun _ => ⟨rfl, rfl⟩⟩
  · intro h; exact absurd h (by norm_num)
  · intro h; exact absurd h modeEoa_ne_modeProxy
  · intro h; exact absurd h modeEoa_ne_modeProxy

theorem ctxInvariant_proxy (eoa p : Str) (w : Option Str)
    (h : pyLower p ≠ pyLower eoa) :
    ctxInvariant (TradingCtx.mk eoa p (some p) 2 modeProxy w) := by
  refine ⟨⟨?_, ?_⟩, by simp, fun _ => ⟨rfl, h⟩, ?_⟩
  · intro h2; exact absurd h2 (by norm_num)
  · intro h2; exact absurd h2 (Ne.symm modeEoa_ne_modeProxy)
  · intro h2; exact absurd h2 (Ne.symm modeEoa_ne_modeProxy)

/-- C9: every TradingContext the resolver produces satisfies:
signature_type = 0 iff mode = "eoa", signature_type = 2 iff mode = "proxy";
in proxy mode the trading address equals the funder address and differs from
the EOA case-insensitively; in eoa mode the trading address is the EOA and
the funder address is absent. -/
theorem resolve_context_invariant (isAddr : Str → Bool)
    (dome : Option (Except Str Json)) (eoa : Str) :
    ctxInvariant (resolve isAddr dome eoa) := by
  unfold resolve
  cases dome with
  | none => exact ctxInvariant_eoa eoa none
  | some r =>
    cases r with
    | error e => exact ctxInvariant_eoa eoa (some e)
    | ok wallet =>
      simp only
      split
      · next p hp =>
        split
        · next hc =>
          have hcc : pyLower p ≠ pyLower eoa := by
            simp only [Bool.and_eq_true, Bool.not_eq_true',
              beq_eq_false_iff_ne] at hc
            exact hc.2
          exact ctxInvariant_proxy eoa p none hcc
        · exact ctxInvariant_eoa eoa none
      · exact ctxInvariant_eoa eoa none

/-! ## Python scalar values appearing in signed-order dicts -/

deriving instance DecidableEq for Except

inductive PyV where
  | vnull
  | vbool (b : Bool)
  | vint (n : ℤ)
  | vfloat (q : ℚ)
  | vstr (s : Str)
deriving DecidableEq

/-- Python truthiness of a scalar. -/
def pyFalsy : PyV → Bool
  | .vnull => true
  | .vbool b => !b
  | .vint n => n = 0
  | .vfloat q => q = 0
  | .vstr s => s.isEmpty

/-- str(value) of a scalar; `fs` is Python's float repr (a capability). -/
def pyStrOf (fs : ℚ → Str) : PyV → Str
  | .vnull => "None".toList
  | .vbool b => if b then "True".toList else "False".toList
  | .vint n => intStr n
  | .vfloat q => fs q
  | .vstr s => s

/-- str(value or ""): the empty string for falsy values. -/
def pyOrEmptyStr (fs : ℚ → Str) (v : PyV) : Str :=
  if pyFalsy v then [] else pyStrOf fs v

/-- int(float) truncates toward zero. -/
def pyTruncFloat (q : ℚ) : ℤ := Int.tdiv q.num q.den

/-- Decimal integer literal accepted by Python's int(str) (after stripping):
optional sign followed by digits. -/
def decStrToInt (l : Str) : Except Str ℤ :=
  match l with
  | [] => .error "invalid literal for int".toList
  | c :: rest =>
    if c = '-' then
      if rest ≠ [] ∧ allDigits rest then .ok (-(parseDigits rest : ℤ))
      else .error "invalid literal for int".toList
    else if c = '+' then
      if rest ≠ [] ∧ allDigits rest then .ok (parseDigits rest : ℤ)
      else .error "invalid literal for int".toList
    else
      if allDigits (c :: rest) then .ok (parseDigits (c :: rest) : ℤ)
      else .error "invalid literal for int".toList

/-- Python's builtin int() on a scalar (bools are ints; floats truncate;
strings are stripped and parsed as decimal integers). -/
def pyIntBuiltin : PyV → Except Str ℤ
  | .vnull => .error "int() argument must not be None".toList
  | .vbool b => .ok (if b then 1 else 0)
  | .vint n => .ok n
  | .vfloat q => .ok (pyTruncFloat q)
  | .vstr s => decStrToInt (pyStrip s)

/-- A signed-order dict: the thirteen fields the backend reads (a missing
key's .get gives vnull). -/
structure RawOrder where
  salt : PyV
  maker : PyV
  signer : PyV
  taker : PyV
  tokenId : PyV
  makerAmount : PyV
  takerAmount : PyV
  expiration : PyV
  nonce : PyV
  feeRateBps : PyV
  side : PyV
  signatureType : PyV
  signature : PyV
deriving DecidableEq

/-! ## main.py: order validation and the signature gate (claim C2) -/

inductive HErr where
  | http (status : ℤ) (detail : Str)
  | pyexc (msg : Str)
deriving DecidableEq

/-- main._normalize_side: BUY/SELL strings pass through (after upper+strip);
anything int()-coercible maps 0 to BUY and every other integer to SELL; a
failed coercion is a 400 Invalid order side. -/
def mainNormalizeSide (raw : PyV) : Except HErr Str :=
  let strCase : Option Str :=
    match raw with
    | .vstr s =>
      let text := pyStrip (pyUpper s)
      if text = "BUY".toList ∨ text = "SELL".toList then some text else none
    | _ => none
  match strCase with
  | some t => .ok t
  | none =>
    match pyIntBuiltin raw with
    | .ok n => .ok (if n = 0 then "BUY".toList else "SELL".toList)
    | .error _ => .error (.http 400 "Invalid order side".toList)

/-- The parts of a session that _validate_signed_order reads: the EOA, and
the trading context's trading_address and (already int-coerced)
signature_type. -/
structure SessionCtx where
  eoa_address : Str
  trading_address : Option Str
  signature_type : ℤ
deriving DecidableEq

/-- main._validate_signed_order: signer and maker compare lowercased,
signatureType compares as ints, tokenId compares stringified, side compares
normalized; checks run in source order and the first failure wins. -/
def validate_signed_order (fs : ℚ → Str) (o : RawOrder) (sess : SessionCtx)
    (tokenId : Str) (expectedSide : Str) : Except HErr Unit :=
  let expectedSigner := pyLower sess.eoa_address
  let expectedMaker := pyLower (optStr sess.trading_address)
  let signer := pyLower (pyOrEmptyStr fs o.signer)
  let maker := pyLower (pyOrEmptyStr fs o.maker)
  if signer ≠ expectedSigner then
    .error (.http 400 "Signed order signer mismatch".toList)
  else if maker ≠ expectedMaker then
    .error (.http 400 "Signed order maker mismatch".toList)
  else
    match pyIntBuiltin o.signatureType with
    | .error e => .error (.pyexc e)
    | .ok orderSigType =>
      if orderSigType ≠ sess.signature_type then
        .error (.http 400 "signatureType mismatch".toList)
      else if pyStrOf fs o.tokenId ≠ tokenId then
        .error (.http 400 "tokenId mismatch".toList)
      else
        match mainNormalizeSide o.side with
        | .error e => .error e
        | .ok side =>
          if side ≠ expectedSide then
            .error (.http 400 ("Expected ".toList ++ expectedSide ++ " order".toList))
          else .ok ()

inductive LimitOutcome where
  | duplicate
  | rejected (e : HErr)
  | forwarded (order : RawOrder) (orderType : Str)
deriving DecidableEq

def orderSigMismatchDetail : Str :=
  ("Order signature does not recover to authenticated EOA for either regular or neg-risk exchange contract.").toList

/-- main.place_limit_order up to the hand-off to post_signed_order.  The two
EIP-712 recoveries under the regular and neg-risk verifying contracts are
the parameters recRegular / recNegRisk (none models a recovery that raised,
mapped to None by _recover_order_signer_candidates); idemDup is the result
of the mark_idempotent short-circuit (false when no key was supplied or the
key was fresh). -/
def place_limit_order (fs : ℚ → Str) (idemDup : Bool) (sess : SessionCtx)
    (o : RawOrder) (tokenId expectedSide orderType : Str)
    (recRegular recNegRisk : Option Str) : LimitOutcome :=
  if idemDup then .duplicate
  else
    match validate_signed_order fs o sess tokenId expectedSide with
    | .error e => .rejected e
    | .ok _ =>
      let expectedSigner := pyLower sess.eoa_address
      let recR := pyLower (optStr recRegular)
      let recN := pyLower (optStr recNegRisk)
      if recR ≠ expectedSigner ∧ recN ≠ expectedSigner then
        .rejected (.http 400 orderSigMismatchDetail)
      else .forwarded o orderType

/-- C2: once the handler reaches the dual-recovery check (no duplicate key,
field validation passed), it rejects with the 400 OrderSignatureMismatch
detail and never forwards the order exactly when neither recovered address
equals the session EOA case-insensitively; when at least one matches, the
check passes and the order is forwarded. -/
theorem place_limit_order_signature_gate (fs : ℚ → Str) (sess : SessionCtx)
    (o : RawOrder) (tokenId expectedSide orderType : Str)
    (recRegular recNegRisk : Option Str)
    (hval : validate_signed_order fs o sess tokenId expectedSide = .ok ()) :
    ((pyLower (optStr recRegular) ≠ pyLower sess.eoa_address ∧
      pyLower (optStr recNegRisk) ≠ pyLower sess.eoa_address) →
      place_limit_order fs false sess o tokenId expectedSide orderType
          recRegular recNegRisk =
        .rejected (.http 400 orderSigMismatchDetail) ∧
      ∀ o2 t2, place_limit_order fs false sess o tokenId expectedSide orderType
          recRegular recNegRisk ≠ .forwarded o2 t2) ∧
    ((pyLower (optStr recRegular) = pyLower sess.eoa_address ∨
      pyLower (optStr recNegRisk) = pyLower sess.eoa_address) →
      place_limit_order fs false sess o tokenId expectedSide orderType
          recRegular recNegRisk = .forwarded o orderType) := by
  constructor
  · intro hmm2
    have h1 : place_limit_order fs false sess o tokenId expectedSide orderType
        recRegular recNegRisk = .rejected (.http 400 orderSigMismatchDetail) := by
      simp [place_limit_order, hval, hmm2]
    refine ⟨h1, ?_⟩
    intro o2 t2
    rw [h1]
    intro hcontra
    exact absurd hcontra (by simp)
  · intro hok
    have hnot : ¬(pyLower (optStr recRegular) ≠ pyLower sess.eoa_address ∧
        pyLower (optStr recNegRisk) ≠ pyLower sess.eoa_address) := by tauto
    simp [place_limit_order, hval, hnot]

def c2Fs : ℚ → Str := fun _ => []

def c2Sess : SessionCtx :=
  { eoa_address := "0xAb".toList, trading_address := some "0xAb".toList,
    signature_type := 0 }

def c2Order : RawOrder :=
  { salt := .vint 1, maker := .vstr "0xAB".toList, signer := .vstr "0xab".toList,
    taker := .vstr "0x0".toList, tokenId := .vstr "5".toList,
    makerAmount := .vint 1, takerAmount := .vint 1, expiration := .vint 0,
    nonce := .vint 0, feeRateBps := .vint 0, side := .vstr "BUY".toList,
    signatureType := .vint 0, signature := .vstr "0xsig".toList }

theorem place_limit_order_signature_gate_witness :
    validate_signed_order c2Fs c2Order c2Sess "5".toList "BUY".toList = .ok () ∧
      (pyLower (optStr (some "0xDEAD".toList)) ≠ pyLower c2Sess.eoa_address ∧
        pyLower (optStr (none : Option Str)) ≠ pyLower c2Sess.eoa_address) ∧
      place_limit_order c2Fs false c2Sess c2Order "5".toList "BUY".toList
          "GTC".toList (some "0xDEAD".toList) none =
        .rejected (.http 400 orderSigMismatchDetail) :=
  ⟨by decide, ⟨by decide, by decide⟩,
   ((place_limit_order_signature_gate c2Fs c2Sess c2Order "5".toList
       "BUY".toList "GTC".toList (some "0xDEAD".toList) none (by decide)).1
     ⟨by decide, by decide⟩).1⟩

/-! ## store.py: snapshot copies of TP arms (claim C6)

A Python object graph: containers live on a heap of reference cells; a cell
holds a mapping from keys to scalars or references to nested containers
(lists are cells keyed by stringified indices).  `dict(arm)` -- the copy that
get_tp_arm returns and that get_tp_arms_for_user returns per arm -- allocates
a fresh top-level cell holding the same key-value pairs, so the nested
containers (events, placed_levels, levels, signed_tp_orders) remain shared
between the snapshot and the stored arm. -/

inductive HVal where
  | prim (v : PyV)
  | href (r : Nat)
deriving DecidableEq

abbrev PyObj := List (Str × HVal)

structure PyHeap where
  objs : Nat → PyObj

/-- In-place mutation of the container in cell r. -/
def heapSet (h : PyHeap) (r : Nat) (o : PyObj) : PyHeap :=
  ⟨fun x => if x = r then o else h.objs x⟩

/-- dict(d): allocate a fresh cell holding the same pairs as cell r. -/
def dictShallowCopy (h : PyHeap) (r fresh : Nat) : PyHeap :=
  heapSet h fresh (h.objs r)

/-- store.InMemoryStore.get_tp_arm on a stored arm: under the lock, return
dict(arm) as a freshly allocated top-level dict. -/
def get_tp_arm (h : PyHeap) (armRef fresh : Nat) : PyHeap × Nat :=
  (dictShallowCopy h armRef fresh, fresh)

def kwEvents : Str := "events".toList

/-- A store holding one arm (cell 0) whose events list is cell 1, empty. -/
def c6Heap : PyHeap :=
  ⟨fun r =>
    if r = 0 then
      [(kwEvents, .href 1), (kwStatus, .prim (.vstr "armed".toList))]
    else []⟩

def c6Mutated : PyHeap :=
  heapSet (get_tp_arm c6Heap 0 2).1 1 [("0".toList, .prim (.vstr "boom".toList))]

/-- C6 counterexample: the snapshot returned by get_tp_arm shares the nested
events container with the stored arm (same reference), so appending to the
snapshot's events outside the lock changes the events content reachable from
the arm record held inside the store: the stored arm still points at cell 1,
whose content changed from [] to the mutated list. -/
theorem get_tp_arm_nested_mutation_corrupts_store :
    ((get_tp_arm c6Heap 0 2).1.objs 2).lookup kwEvents = some (.href 1) ∧
      (c6Heap.objs 0).lookup kwEvents = some (.href 1) ∧
      c6Heap.objs 1 = [] ∧
      (c6Mutated.objs 0).lookup kwEvents = some (.href 1) ∧
      c6Mutated.objs 1 = [("0".toList, .prim (.vstr "boom".toList))] ∧
      c6Mutated.objs 1 ≠ c6Heap.objs 1 := by
  refine ⟨?_, ?_, ?_, ?_, ?_, ?_⟩ <;> decide

/-- C6 amended: get_tp_arm (and, per arm, get_tp_arms_for_user) returns a
SHALLOW copy: the snapshot is a fresh top-level dict with the same pairs, so
replacing entries at the snapshot's top level leaves the stored arm
untouched, but mutating a nested container through the snapshot's shared
reference is visible from the stored arm (its top-level pairs still point at
the mutated cell, whose content is now the new one). -/
theorem get_tp_arm_shallow_copy (h : PyHeap) (armRef fresh r : Nat)
    (o o2 : PyObj) (hfr : fresh ≠ armRef) (hr1 : r ≠ armRef) (_hr2 : r ≠ fresh) :
    ((get_tp_arm h armRef fresh).1.objs fresh = h.objs armRef) ∧
      ((heapSet (get_tp_arm h armRef fresh).1 fresh o2).objs armRef =
        h.objs armRef) ∧
      ((heapSet (get_tp_arm h armRef fresh).1 r o).objs armRef =
        h.objs armRef) ∧
      ((heapSet (get_tp_arm h armRef fresh).1 r o).objs r = o) := by
  refine ⟨?_, ?_, ?_, ?_⟩ <;>
    simp [get_tp_arm, dictShallowCopy, heapSet, hfr, hr1,
      Ne.symm hfr, Ne.symm hr1]

theorem get_tp_arm_shallow_copy_witness :
    (2 : Nat) ≠ 0 ∧ (1 : Nat) ≠ 0 ∧ (1 : Nat) ≠ 2 ∧
      ((get_tp_arm c6Heap 0 2).1.objs 2 = c6Heap.objs 0 ∧
        ((heapSet (get_tp_arm c6Heap 0 2).1 2 []).objs 0 = c6Heap.objs 0) ∧
        ((heapSet (get_tp_arm c6Heap 0 2).1 1
            [("0".toList, .prim (.vstr "boom".toList))]).objs 0 =
          c6Heap.objs 0) ∧
        ((heapSet (get_tp_arm c6Heap 0 2).1 1
            [("0".toList, .prim (.vstr "boom".toList))]).objs 1 =
          [("0".toList, .prim (.vstr "boom".toList))])) :=
  ⟨by decide, by decide, by decide,
   get_tp_arm_shallow_copy c6Heap 0 2 1
     [("0".toList, .prim (.vstr "boom".toList))] [] (by decide) (by decide)
     (by decide)⟩

/-! ## clob_session.py: signed-order normalization (claim C8) -/

def startsWith0x : Str → Bool
  | c1 :: c2 :: _ => c1 = '0' && (c2 = 'x' || c2 = 'X')
  | _ => false

def hexDigitVal (c : Char) : Nat :=
  if isDigitCh c then c.toNat - 48
  else if 'a' ≤ c && c ≤ 'f' then c.toNat - 87
  else c.toNat - 55

/-- int(text, 16) on a stripped string that starts with 0x/0X. -/
def hexStrToInt (l : Str) : Except Str ℤ :=
  match l with
  | _ :: _ :: rest =>
    if rest ≠ [] ∧ rest.all isHexDigitPy then
      .ok ((rest.foldl (fun a c => a * 16 + hexDigitVal c) 0 : ℕ) : ℤ)
    else .error "invalid literal for int with base 16".toList
  | _ => .error "invalid literal for int with base 16".toList

/-- clob_session._to_int: bools are rejected, ints pass, strings are stripped
then parsed as hex (0x/0X prefix) or decimal, floats truncate via int(),
None raises. -/
def clobToInt (v : PyV) (fieldName : Str) : Except Str ℤ :=
  match v with
  | .vbool _ => .error (fieldName ++ " must be integer-like, got bool".toList)
  | .vint n => .ok n
  | .vstr s =>
    let text := pyStrip s
    if startsWith0x text then hexStrToInt text else decStrToInt text
  | .vfloat q => .ok (pyTruncFloat q)
  | .vnull => .error "int() argument must not be None".toList

/-- clob_session._normalize_side: BUY/SELL strings (after strip+upper) pass;
otherwise _to_int must give exactly 0 (BUY) or 1 (SELL). -/
def clobNormalizeSide (v : PyV) : Except Str Str :=
  let strCase : Option Str :=
    match v with
    | .vstr s =>
      let text := pyUpper (pyStrip s)
      if text = "BUY".toList ∨ text = "SELL".toList then some text else none
    | _ => none
  match strCase with
  | some t => .ok t
  | none =>
    match clobToInt v "side".toList with
    | .error e => .error e
    | .ok n =>
      if n = 0 then .ok "BUY".toList
      else if n = 1 then .ok "SELL".toList
      else .error "side must be BUY/SELL or 0/1".toList

/-- clob_session._normalize_addr: str(value or "").strip() must satisfy
is_address (capability isAddr); the checksummed form (capability cks) is
returned. -/
def clobNormalizeAddr (isAddr : Str → Bool) (cks : Str → Str) (fs : ℚ → Str)
    (v : PyV) : Except Str Str :=
  let text := pyStrip (pyOrEmptyStr fs v)
  if isAddr text then .ok (cks text)
  else .error "is not a valid address".toList

def maxSafeJsonInt : ℤ := 9007199254740991

/-- The typed canonical form of a normalized signed order. -/
structure NormOrder where
  salt : ℤ
  maker : Str
  signer : Str
  taker : Str
  tokenId : ℤ
  makerAmount : ℤ
  takerAmount : ℤ
  expiration : ℤ
  nonce : ℤ
  feeRateBps : ℤ
  side : Str
  signatureType : ℤ
  signature : Str
deriving DecidableEq

/-- The dict _normalize_signed_order_payload builds: salt stays an int, the
uint fields become decimal strings, addresses and side and signature stay
strings, signatureType stays an int. -/
def renderOrder (p : NormOrder) : RawOrder :=
  { salt := .vint p.salt, maker := .vstr p.maker, signer := .vstr p.signer,
    taker := .vstr p.taker, tokenId := .vstr (intStr p.tokenId),
    makerAmount := .vstr (intStr p.makerAmount),
    takerAmount := .vstr (intStr p.takerAmount),
    expiration := .vstr (intStr p.expiration), nonce := .vstr (intStr p.nonce),
    feeRateBps := .vstr (intStr p.feeRateBps), side := .vstr p.side,
    signatureType := .vint p.signatureType, signature := .vstr p.signature }

/-- clob_session._normalize_signed_order_payload, factored as a parse into
the typed canonical form (the emitted dict is renderOrder of the result).
Checks run in source order: signature presence, salt bounds, then the field
conversions in dict-construction order. -/
def parseOrder (isAddr : Str → Bool) (cks : Str → Str) (fs : ℚ → Str)
    (o : RawOrder) : Except Str NormOrder :=
  let signature := pyStrip (pyOrEmptyStr fs o.signature)
  if signature = [] then .error "signature is required".toList
  else
    match clobToInt o.salt "salt".toList with
    | .error e => .error e
    | .ok salt =>
      if salt < 0 ∨ maxSafeJsonInt < salt then
        .error "salt out of range for CLOB JSON payload compatibility".toList
      else
        match clobNormalizeAddr isAddr cks fs o.maker with
        | .error e => .error e
        | .ok maker =>
          match clobNormalizeAddr isAddr cks fs o.signer with
          | .error e => .error e
          | .ok signer =>
            match clobNormalizeAddr isAddr cks fs o.taker with
            | .error e => .error e
            | .ok taker =>
              match clobToInt o.tokenId "tokenId".toList with
              | .error e => .error e
              | .ok tokenId =>
                match clobToInt o.makerAmount "makerAmount".toList with
                | .error e => .error e
                | .ok makerAmount =>
                  match clobToInt o.takerAmount "takerAmount".toList with
                  | .error e => .error e
                  | .ok takerAmount =>
                    match clobToInt o.expiration "expiration".toList with
                    | .error e => .error e
                    | .ok expiration =>
                      match clobToInt o.nonce "nonce".toList with
                      | .error e => .error e
                      | .ok nonce =>
                        match clobToInt o.feeRateBps "feeRateBps".toList with
                        | .error e => .error e
                        | .ok feeRateBps =>
                          match clobNormalizeSide o.side with
                          | .error e => .error e
                          | .ok side =>
                            match clobToInt o.signatureType "signatureType".toList with
                            | .error e => .error e
                            | .ok signatureType =>
                              .ok ⟨salt, maker, signer, taker, tokenId,
                                makerAmount, takerAmount, expiration, nonce,
                                feeRateBps, side, signatureType, signature⟩

/-- clob_session._normalize_signed_order_payload. -/
def normalize_signed_order (isAddr : Str → Bool) (cks : Str → Str)
    (fs : ℚ → Str) (o : RawOrder) : Except Str RawOrder :=
  (parseOrder isAddr cks fs o).map renderOrder

/-! ### Round-trip facts about decimal printing, stripping and parsing -/

theorem digitChar_spec (d : Nat) (h : d < 10) :
    isDigitCh (digitChar d) = true ∧ digitVal (digitChar d) = d := by
  interval_cases d <;> exact ⟨by decide, by decide⟩

theorem isDigitCh_not_ws (c : Char) (h : isDigitCh c = true) : pyWs c = false := by
  simp only [isDigitCh, Bool.and_eq_true, decide_eq_true_eq] at h
  simp only [pyWs, Bool.or_eq_false_iff, decide_eq_false_iff_not]
  omega

theorem no_ws_pyStrip (l : Str) (h : ∀ c ∈ l, pyWs c = false) : pyStrip l = l := by
  unfold pyStrip
  have h1 : l.dropWhile pyWs = l := by
    cases l with
    | nil => rfl
    | cons c rest =>
      rw [List.dropWhile_cons_of_neg]
      simp [h c (List.mem_cons_self c rest)]
  rw [h1]
  exact List.rdropWhile_eq_self_iff.mpr
    (fun hl => by simp [h _ (List.getLast_mem hl)])

theorem natStrGo_spec (n : Nat) :
    ∀ fuel, n < fuel →
      natStrGo fuel n ≠ [] ∧ allDigits (natStrGo fuel n) = true ∧
        parseDigits (natStrGo fuel n) = n := by
  induction n using Nat.strong_induction_on with
  | _ n ih =>
    intro fuel hfuel
    cases fuel with
    | zero => omega
    | succ f =>
      by_cases h : n < 10
      · simp only [natStrGo, if_pos h]
        refine ⟨by simp, ?_, ?_⟩
        · simp [allDigits, (digitChar_spec n h).1]
        · simp [parseDigits, (digitChar_spec n h).2]
      · simp only [natStrGo, if_neg h]
        have hdiv : n / 10 < n := Nat.div_lt_self (by omega) (by omega)
        have hdivf : n / 10 < f := by omega
        obtain ⟨h1, h2, h3⟩ := ih (n / 10) hdiv f hdivf
        have hmod : n % 10 < 10 := Nat.mod_lt _ (by omega)
        refine ⟨by simp, ?_, ?_⟩
        · simp only [allDigits, List.all_append, Bool.and_eq_true] at h2 ⊢
          exact ⟨h2, by simp [(digitChar_spec _ hmod).1]⟩
        · simp only [parseDigits, List.foldl_append] at h3 ⊢
          simp [h3, (digitChar_spec _ hmod).2]
          omega

theorem natStr_spec (n : Nat) :
    natStr n ≠ [] ∧ allDigits (natStr n) = true ∧ parseDigits (natStr n) = n :=
  natStrGo_spec n (n + 1) (by omega)

theorem pyStrip_intStr (n : ℤ) : pyStrip (intStr n) = intStr n := by
  refine no_ws_pyStrip _ ?_
  intro c hc
  unfold intStr at hc
  by_cases h : n < 0
  · rw [if_pos h] at hc
    rcases List.mem_cons.mp hc with h2 | h2
    · subst h2; decide
    · have := (natStr_spec n.natAbs).2.1
      simp only [allDigits, List.all_eq_true] at this
      exact isDigitCh_not_ws c (this c h2)
  · rw [if_neg h] at hc
    have := (natStr_spec n.toNat).2.1
    simp only [allDigits, List.all_eq_true] at this
    exact isDigitCh_not_ws c (this c hc)

theorem startsWith0x_digits (l : Str) (h : allDigits l = true) :
    startsWith0x l = false := by
  rcases l with _ | ⟨c1, _ | ⟨c2, rest⟩⟩
  · rfl
  · rfl
  · simp only [allDigits, List.all_cons, Bool.and_eq_true] at h
    have h2 := h.2.1
    have hx : c2 ≠ 'x' := by intro he; rw [he] at h2; exact absurd h2 (by decide)
    have hX : c2 ≠ 'X' := by intro he; rw [he] at h2; exact absurd h2 (by decide)
    simp [startsWith0x, hx, hX]

theorem startsWith0x_intStr (n : ℤ) : startsWith0x (intStr n) = false := by
  unfold intStr
  by_cases h : n < 0
  · rw [if_pos h]
    rcases hE : natStr n.natAbs with _ | ⟨c2, rest⟩
    · rfl
    · simp [startsWith0x, show ('-' : Char) ≠ '0' from by decide]
  · rw [if_neg h]
    exact startsWith0x_digits _ (natStr_spec n.toNat).2.1

theorem decStrToInt_natStr (m : Nat) : decStrToInt (natStr m) = .ok (m : ℤ) := by
  obtain ⟨h1, h2, h3⟩ := natStr_spec m
  rcases hE : natStr m with _ | ⟨c, rest⟩
  · exact absurd hE h1
  · rw [hE] at h2 h3
    have hc : isDigitCh c = true := by
      simp only [allDigits, List.all_cons, Bool.and_eq_true] at h2
      exact h2.1
    have hminus : c ≠ '-' := by
      intro he; rw [he] at hc; exact absurd hc (by decide)
    have hplus : c ≠ '+' := by
      intro he; rw [he] at hc; exact absurd hc (by decide)
    simp only [decStrToInt]
    rw [if_neg hminus, if_neg hplus, if_pos h2, h3]

theorem decStrToInt_intStr (n : ℤ) : decStrToInt (intStr n) = .ok n := by
  unfold intStr
  by_cases h : n < 0
  · rw [if_pos h]
    obtain ⟨h1, h2, h3⟩ := natStr_spec n.natAbs
    simp only [decStrToInt]
    rw [if_pos trivial, if_pos ⟨h1, h2⟩, h3]
    congr 1
    omega
  · rw [if_neg h]
    rw [decStrToInt_natStr]
    congr 1
    omega

theorem clobToInt_intStr (n : ℤ) (f : Str) :
    clobToInt (.vstr (intStr n)) f = .ok n := by
  unfold clobToInt
  simp only [pyStrip_intStr n, startsWith0x_intStr n, Bool.false_eq_true,
    if_false, decStrToInt_intStr n]

theorem clobToInt_vint (n : ℤ) (f : Str) : clobToInt (.vint n) f = .ok n := rfl

theorem pyOrEmptyStr_vstr (fs : ℚ → Str) (s : Str) :
    pyOrEmptyStr fs (.vstr s) = s := by
  by_cases h : s = []
  · subst h; rfl
  · simp [pyOrEmptyStr, pyFalsy, pyStrOf, h]

theorem dropWhile_head_false {p : Char → Bool} :
    ∀ (l : Str) (c : Char) (rest : Str), l.dropWhile p = c :: rest →
      p c = false := by
  intro l
  induction l with
  | nil => intro c rest h; simp at h
  | cons a as ih =>
    intro c rest h
    by_cases hp : p a
    · rw [List.dropWhile_cons_of_pos hp] at h
      exact ih c rest h
    · rw [List.dropWhile_cons_of_neg hp] at h
      injection h with h1 _
      subst h1
      simpa using hp

theorem pyStrip_idem (l : Str) : pyStrip (pyStrip l) = pyStrip l := by
  conv_lhs => rw [pyStrip, pyStrip]
  have h1 : ((l.dropWhile pyWs).rdropWhile pyWs).dropWhile pyWs =
      (l.dropWhile pyWs).rdropWhile pyWs := by
    rcases hE : (l.dropWhile pyWs).rdropWhile pyWs with _ | ⟨c, rest⟩
    · simp
    · have hpre : List.IsPrefix (c :: rest) (l.dropWhile pyWs) := by
        rw [← hE]
        exact List.rdropWhile_prefix _ _
      obtain ⟨t, ht⟩ := hpre
      have hAc : l.dropWhile pyWs = c :: (rest ++ t) := by
        rw [← ht]; rfl
      have hc := dropWhile_head_false l c (rest ++ t) hAc
      rw [List.dropWhile_cons_of_neg (by simp [hc])]
  rw [h1, List.rdropWhile_idempotent]
  rfl

theorem clobNormalizeAddr_ok (isAddr : Str → Bool) (cks : Str → Str)
    (fs : ℚ → Str) (v : PyV) (a : Str)
    (hPres : ∀ s, isAddr s = true → isAddr (cks s) = true)
    (hIdem : ∀ s, isAddr s = true → cks (cks s) = cks s)
    (hTrim : ∀ s, isAddr s = true → pyStrip (cks s) = cks s)
    (h : clobNormalizeAddr isAddr cks fs v = .ok a) :
    isAddr a = true ∧ cks a = a ∧ pyStrip a = a := by
  simp only [clobNormalizeAddr] at h
  by_cases hT : isAddr (pyStrip (pyOrEmptyStr fs v)) = true
  · rw [if_pos hT] at h
    simp only [Except.ok.injEq] at h
    subst h
    exact ⟨hPres _ hT, hIdem _ hT, hTrim _ hT⟩
  · rw [if_neg hT] at h
    exact absurd h (by simp)

theorem clobNormalizeAddr_canonical (isAddr : Str → Bool) (cks : Str → Str)
    (fs : ℚ → Str) (a : Str) (h1 : isAddr a = true) (h2 : cks a = a)
    (h3 : pyStrip a = a) :
    clobNormalizeAddr isAddr cks fs (.vstr a) = .ok a := by
  simp only [clobNormalizeAddr, pyOrEmptyStr_vstr, h3]
  rw [if_pos h1, h2]

theorem clobNormalizeSide_ok (v : PyV) (s : Str)
    (h : clobNormalizeSide v = .ok s) :
    s = "BUY".toList ∨ s = "SELL".toList := by
  simp only [clobNormalizeSide] at h
  split at h
  · next t heq =>
    simp only [Except.ok.injEq] at h
    subst h
    split at heq
    · next s2 =>
      split at heq
      · next hcond =>
        simp only [Option.some.injEq] at heq
        subst heq
        exact hcond
      · exact absurd heq (by simp)
    · exact absurd heq (by simp)
  · next heq =>
    split at h
    · exact absurd h (by simp)
    · next n hn =>
      split at h
      · simp only [Except.ok.injEq] at h
        exact Or.inl h.symm
      · split at h
        · simp only [Except.ok.injEq] at h
          exact Or.inr h.symm
        · exact absurd h (by simp)

theorem clobNormalizeSide_canonical (s : Str)
    (h : s = "BUY".toList ∨ s = "SELL".toList) :
    clobNormalizeSide (.vstr s) = .ok s := by
  rcases h with h | h <;> subst h <;> decide

/-- The key step for idempotence: the canonical dict built from a successful
parse parses back to the same canonical form, under the eth_utils capability
contract (checksumming preserves validity, is idempotent on valid addresses,
and emits no surrounding whitespace). -/
theorem parseOrder_render (isAddr : Str → Bool) (cks : Str → Str)
    (fs fs2 : ℚ → Str)
    (hPres : ∀ s, isAddr s = true → isAddr (cks s) = true)
    (hIdem : ∀ s, isAddr s = true → cks (cks s) = cks s)
    (hTrim : ∀ s, isAddr s = true → pyStrip (cks s) = cks s)
    (o : RawOrder) (p : NormOrder)
    (h : parseOrder isAddr cks fs o = .ok p) :
    parseOrder isAddr cks fs2 (renderOrder p) = .ok p := by
  simp only [parseOrder] at h
  split at h
  · exact absurd h (by simp)
  next hsig =>
  split at h
  · exact absurd h (by simp)
  next salt hsalt =>
  split at h
  · exact absurd h (by simp)
  next hrange =>
  split at h
  · exact absurd h (by simp)
  next maker hmaker =>
  split at h
  · exact absurd h (by simp)
  next signer hsigner =>
  split at h
  · exact absurd h (by simp)
  next taker htaker =>
  split at h
  · exact absurd h (by simp)
  next tokenId htokenId =>
  split at h
  · exact absurd h (by simp)
  next makerAmount hmakerAmount =>
  split at h
  · exact absurd h (by simp)
  next takerAmount htakerAmount =>
  split at h
  · exact absurd h (by simp)
  next expiration hexpiration =>
  split at h
  · exact absurd h (by simp)
  next nonce hnonce =>
  split at h
  · exact absurd h (by simp)
  next feeRateBps hfeeRateBps =>
  split at h
  · exact absurd h (by simp)
  next side hside =>
  split at h
  · exact absurd h (by simp)
  next signatureType hsignatureType =>
  simp only [Except.ok.injEq] at h
  subst h
  obtain ⟨hm1, hm2, hm3⟩ :=
    clobNormalizeAddr_ok isAddr cks fs o.maker maker hPres hIdem hTrim hmaker
  obtain ⟨hs1, hs2, hs3⟩ :=
    clobNormalizeAddr_ok isAddr cks fs o.signer signer hPres hIdem hTrim hsigner
  obtain ⟨ht1, ht2, ht3⟩ :=
    clobNormalizeAddr_ok isAddr cks fs o.taker taker hPres hIdem hTrim htaker
  have hsideBS := clobNormalizeSide_ok o.side side hside
  have hsig2 : pyStrip (pyOrEmptyStr fs2
      (.vstr (pyStrip (pyOrEmptyStr fs o.signature)))) =
      pyStrip (pyOrEmptyStr fs o.signature) := by
    rw [pyOrEmptyStr_vstr, pyStrip_idem]
  simp only [parseOrder, renderOrder, hsig2, clobToInt_vint, clobToInt_intStr,
    clobNormalizeAddr_canonical isAddr cks fs2 maker hm1 hm2 hm3,
    clobNormalizeAddr_canonical isAddr cks fs2 signer hs1 hs2 hs3,
    clobNormalizeAddr_canonical isAddr cks fs2 taker ht1 ht2 ht3,
    clobNormalizeSide_canonical side hsideBS]
  rw [if_neg hsig, if_neg hrange]

/-- C8: _normalize_signed_order_payload is idempotent -- normalizing its own
output changes nothing: the salt stays the same bounded int, the addresses
stay checksummed, the uint fields stay the same decimal strings, the side
stays BUY/SELL, signatureType stays the same int and the signature is
unchanged.  The eth_utils capabilities isAddr/cks are assumed to satisfy:
checksumming a valid address yields a valid address, is idempotent on valid
addresses, and emits no surrounding whitespace. -/
theorem normalize_signed_order_idempotent (isAddr : Str → Bool)
    (cks : Str → Str) (fs : ℚ → Str)
    (hPres : ∀ s, isAddr s = true → isAddr (cks s) = true)
    (hIdem : ∀ s, isAddr s = true → cks (cks s) = cks s)
    (hTrim : ∀ s, isAddr s = true → pyStrip (cks s) = cks s)
    (o y : RawOrder) (h : normalize_signed_order isAddr cks fs o = .ok y) :
    normalize_signed_order isAddr cks fs y = .ok y := by
  unfold normalize_signed_order at h ⊢
  cases hp : parseOrder isAddr cks fs o with
  | error e => rw [hp] at h; exact absurd h (by simp [Except.map])
  | ok p =>
    rw [hp] at h
    simp only [Except.map, Except.ok.injEq] at h
    subst h
    rw [parseOrder_render isAddr cks fs fs hPres hIdem hTrim o p hp]
    rfl

def isAddrW : Str → Bool := fun s => s == "0xAb".toList

def c8Order : RawOrder :=
  { salt := .vint 5, maker := .vstr "0xAb".toList,
    signer := .vstr " 0xAb ".toList, taker := .vstr "0xAb".toList,
    tokenId := .vint 7, makerAmount := .vstr "12".toList,
    takerAmount := .vint 3, expiration := .vint 0, nonce := .vint 0,
    feeRateBps := .vstr "0x0".toList, side := .vstr "buy".toList,
    signatureType := .vint 0, signature := .vstr "  0xsig  ".toList }

def c8Norm : RawOrder :=
  renderOrder ⟨5, "0xAb".toList, "0xAb".toList, "0xAb".toList, 7, 12, 3, 0, 0,
    0, "BUY".toList, 0, "0xsig".toList⟩

theorem normalize_signed_order_idempotent_witness :
    normalize_signed_order isAddrW id (fun _ => []) c8Order = .ok c8Norm ∧
      normalize_signed_order isAddrW id (fun _ => []) c8Norm = .ok c8Norm := by
  have hPres : ∀ s, isAddrW s = true → isAddrW (id s) = true := fun _ hs => hs
  have hIdem : ∀ s, isAddrW s = true → id (id s) = id s := fun _ _ => rfl
  have hTrim : ∀ s, isAddrW s = true → pyStrip (id s) = id s := by
    intro s hs
    have h2 : s = "0xAb".toList := by simpa [isAddrW] using hs
    subst h2; decide
  have h1 : normalize_signed_order isAddrW id (fun _ => []) c8Order =
      .ok c8Norm := by decide
  exact ⟨h1,
    normalize_signed_order_idempotent isAddrW id (fun _ => []) hPres hIdem
      hTrim c8Order c8Norm h1⟩

/-! ## tp_engine.TpEngine._monitor_arm: idempotent level placement (claim C1)

The monitor loop is modelled as a small-step transition system over the
store's state for one arm.  A thread is one in-flight iteration of the loop:
it snapshots the stored placed_levels keys (the dict copy taken at the top
of the iteration), walks the levels by index, and finally writes its local
placed_levels back wholesale (update_tp_arm).  Whether a level's threshold
is crossed is over-approximated by a nondeterministic skip, so every
sequence of fill readings is covered; an exception aborts an iteration
(drop); overlapping iterations of the same arm are several live threads.
mark_idempotent is atomic (store lock); a post_signed_order call follows a
successful mark unconditionally (stage fire), and is logged in posts.  An
arm's signed_tp_orders are fixed for the process lifetime -- no code path
patches them -- so the signature under a level index is the fixed function
sigOf. -/

structure ArmEnv where
  armId : Str
  nlevels : Nat
  sigOf : Nat → Option Str

/-- The idempotency key f-string arm_id:idx:sig. -/
def idemKey (e : ArmEnv) (i : Nat) (sig : Str) : Str :=
  e.armId ++ (':' :: natStr i) ++ (':' :: sig)

/-- The canonical idempotency key of a level that has a signed order. -/
def mkKey (e : ArmEnv) (i : Nat) : Option Str :=
  (e.sigOf i).map (idemKey e i)

inductive Stage where
  | scan
  | fire (i : Nat) (k : Str)
deriving DecidableEq

structure Iter where
  snap : List Nat
  idx : Nat
  stage : Stage
deriving DecidableEq

structure MonCfg where
  placed : List Nat
  idem : List Str
  posts : List Nat
  threads : List Iter

/-- placed_levels[str(idx)] = ... on the local dict (keys only). -/
def insertKey (i : Nat) (l : List Nat) : List Nat := if i ∈ l then l else i :: l

def isFireAt (i : Nat) : Stage → Bool
  | .fire j _ => j = i
  | .scan => false

/-- Number of threads between a successful mark_idempotent for level i and
the corresponding post_signed_order call. -/
def cntFires (ts : List Iter) (i : Nat) : Nat :=
  ts.countP (fun t => isFireAt i t.stage)

inductive MonStep (e : ArmEnv) : MonCfg → MonCfg → Prop where
  | spawn (c : MonCfg) :
      MonStep e c { c with threads := ⟨c.placed, 0, .scan⟩ :: c.threads }
  | drop (c : MonCfg) (ts1 ts2 : List Iter) (t : Iter)
      (h : c.threads = ts1 ++ t :: ts2) :
      MonStep e c { c with threads := ts1 ++ ts2 }
  | skip (c : MonCfg) (ts1 ts2 : List Iter) (t : Iter)
      (h : c.threads = ts1 ++ t :: ts2) (hst : t.stage = .scan)
      (hidx : t.idx < e.nlevels) :
      MonStep e c { c with threads := ts1 ++ { t with idx := t.idx + 1 } :: ts2 }
  | missing (c : MonCfg) (ts1 ts2 : List Iter) (t : Iter)
      (h : c.threads = ts1 ++ t :: ts2) (hst : t.stage = .scan)
      (hidx : t.idx < e.nlevels) (hnew : t.idx ∉ t.snap)
      (hsig : e.sigOf t.idx = none) :
      MonStep e c
        { c with
          threads := ts1 ++
            { t with
              idx := t.idx + 1,
              snap := insertKey t.idx t.snap } :: ts2 }
  | markSkip (c : MonCfg) (ts1 ts2 : List Iter) (t : Iter) (sig : Str)
      (h : c.threads = ts1 ++ t :: ts2) (hst : t.stage = .scan)
      (hidx : t.idx < e.nlevels) (hnew : t.idx ∉ t.snap)
      (hsig : e.sigOf t.idx = some sig)
      (hdup : idemKey e t.idx sig ∈ c.idem) :
      MonStep e c { c with threads := ts1 ++ { t with idx := t.idx + 1 } :: ts2 }
  | markOk (c : MonCfg) (ts1 ts2 : List Iter) (t : Iter) (sig : Str)
      (h : c.threads = ts1 ++ t :: ts2) (hst : t.stage = .scan)
      (hidx : t.idx < e.nlevels) (hnew : t.idx ∉ t.snap)
      (hsig : e.sigOf t.idx = some sig)
      (hfresh : idemKey e t.idx sig ∉ c.idem) :
      MonStep e c
        { c with
          idem := idemKey e t.idx sig :: c.idem,
          threads := ts1 ++
            { t with stage := .fire t.idx (idemKey e t.idx sig) } :: ts2 }
  | fire (c : MonCfg) (ts1 ts2 : List Iter) (t : Iter) (i : Nat) (k : Str)
      (h : c.threads = ts1 ++ t :: ts2) (hst : t.stage = .fire i k) :
      MonStep e c
        { c with
          posts := i :: c.posts,
          threads := ts1 ++
            { t with
              stage := .scan,
              idx := i + 1,
              snap := insertKey i t.snap } :: ts2 }
  | writeBack (c : MonCfg) (ts1 ts2 : List Iter) (t : Iter)
      (h : c.threads = ts1 ++ t :: ts2) (hst : t.stage = .scan)
      (hidx : e.nlevels ≤ t.idx) :
      MonStep e c
        { c with
          placed := t.snap,
          threads := ts1 ++ ts2 }

/-- Indicator: 1 when level i's canonical key is in the idempotency set. -/
def indK (e : ArmEnv) (idem : List Str) (i : Nat) : Nat :=
  match mkKey e i with
  | some k => if k ∈ idem then 1 else 0
  | none => 0

structure MonInv (e : ArmEnv) (c : MonCfg) : Prop where
  placed_nodup : c.placed.Nodup
  placed_lt : ∀ i ∈ c.placed, i < e.nlevels
  snap_nodup : ∀ t ∈ c.threads, t.snap.Nodup
  snap_lt : ∀ t ∈ c.threads, ∀ i ∈ t.snap, i < e.nlevels
  fire_lt : ∀ t ∈ c.threads, ∀ i k, t.stage = .fire i k → i < e.nlevels
  count_bound : ∀ i, c.posts.count i + cntFires c.threads i ≤ indK e c.idem i

def monInit : MonCfg := ⟨[], [], [], []⟩

/-- Configurations the monitor system can reach from process start. -/
def MonReachable (e : ArmEnv) (c : MonCfg) : Prop :=
  Relation.ReflTransGen (MonStep e) monInit c

theorem insertKey_nodup (i : Nat) (l : List Nat) (h : l.Nodup) :
    (insertKey i l).Nodup := by
  unfold insertKey
  by_cases hm : i ∈ l
  · rw [if_pos hm]; exact h
  · rw [if_neg hm]; exact List.nodup_cons.mpr ⟨hm, h⟩

theorem insertKey_lt (i n : Nat) (l : List Nat) (hl : ∀ j ∈ l, j < n)
    (hi : i < n) : ∀ j ∈ insertKey i l, j < n := by
  intro j hj
  unfold insertKey at hj
  by_cases hm : i ∈ l
  · rw [if_pos hm] at hj; exact hl j hj
  · rw [if_neg hm] at hj
    rcases List.mem_cons.mp hj with h | h
    · subst h; exact hi
    · exact hl j h

theorem cntFires_cons (t : Iter) (ts : List Iter) (i : Nat) :
    cntFires (t :: ts) i =
      cntFires ts i + (if isFireAt i t.stage then 1 else 0) :=
  List.countP_cons _ _ _

theorem cntFires_decomp (ts1 ts2 : List Iter) (t : Iter) (i : Nat) :
    cntFires (ts1 ++ t :: ts2) i =
      cntFires ts1 i + cntFires ts2 i + (if isFireAt i t.stage then 1 else 0) := by
  unfold cntFires
  rw [List.countP_append, List.countP_cons]
  omega

theorem cntFires_append2 (ts1 ts2 : List Iter) (i : Nat) :
    cntFires (ts1 ++ ts2) i = cntFires ts1 i + cntFires ts2 i :=
  List.countP_append _ _ _

theorem indK_mono (e : ArmEnv) (k : Str) (idem : List Str) (i : Nat) :
    indK e idem i ≤ indK e (k :: idem) i := by
  unfold indK
  cases mkKey e i with
  | none => exact le_refl _
  | some k2 =>
    by_cases h : k2 ∈ idem
    · simp [h, List.mem_cons]
    · simp [h]

theorem indK_le_one (e : ArmEnv) (idem : List Str) (i : Nat) :
    indK e idem i ≤ 1 := by
  unfold indK
  cases mkKey e i with
  | none => simp
  | some k2 => by_cases h : k2 ∈ idem <;> simp [h]

theorem all_update {P : Iter → Prop} (ts1 ts2 : List Iter) (t t' : Iter)
    (hall : ∀ u ∈ ts1 ++ t :: ts2, P u) (ht' : P t') :
    ∀ u ∈ ts1 ++ t' :: ts2, P u := by
  intro u hu
  rcases List.mem_append.mp hu with h | h
  · exact hall u (List.mem_append.mpr (Or.inl h))
  · rcases List.mem_cons.mp h with h | h
    · subst h; exact ht'
    · exact hall u (List.mem_append.mpr (Or.inr (List.mem_cons_of_mem _ h)))

theorem all_remove {P : Iter → Prop} (ts1 ts2 : List Iter) (t : Iter)
    (hall : ∀ u ∈ ts1 ++ t :: ts2, P u) : ∀ u ∈ ts1 ++ ts2, P u := by
  intro u hu
  rcases List.mem_append.mp hu with h | h
  · exact hall u (List.mem_append.mpr (Or.inl h))
  · exact hall u (List.mem_append.mpr (Or.inr (List.mem_cons_of_mem _ h)))

theorem mem_mid (ts1 ts2 : List Iter) (t : Iter) : t ∈ ts1 ++ t :: ts2 :=
  List.mem_append.mpr (Or.inr (List.mem_cons_self _ _))

theorem MonInv_init (e : ArmEnv) : MonInv e monInit := by
  refine ⟨List.nodup_nil, ?_, ?_, ?_, ?_, ?_⟩
  · intro i hi; exact absurd hi (List.not_mem_nil _)
  · intro t ht; exact absurd ht (List.not_mem_nil _)
  · intro t ht; exact absurd ht (List.not_mem_nil _)
  · intro t ht; exact absurd ht (List.not_mem_nil _)
  · intro i; simp [monInit, cntFires]

theorem MonInv_step (e : ArmEnv) (c c' : MonCfg) (hinv : MonInv e c)
    (hstep : MonStep e c c') : MonInv e c' := by
  obtain ⟨hpn, hpl, hsn, hsl, hfl, hcb⟩ := hinv
  cases hstep with
  | spawn =>
      refine ⟨hpn, hpl, ?_, ?_, ?_, ?_⟩
      · intro u hu
        rcases List.mem_cons.mp hu with h | h
        · subst h; exact hpn
        · exact hsn u h
      · intro u hu
        rcases List.mem_cons.mp hu with h | h
        · subst h; exact hpl
        · exact hsl u h
      · intro u hu
        rcases List.mem_cons.mp hu with h | h
        · subst h; intro i k hik; cases hik
        · exact hfl u h
      · intro i
        show c.posts.count i + cntFires (⟨c.placed, 0, .scan⟩ :: c.threads) i ≤
          indK e c.idem i
        rw [cntFires_cons]
        simpa [isFireAt] using hcb i
  | drop ts1 ts2 t h =>
      rw [h] at hsn hsl hfl hcb
      refine ⟨hpn, hpl, all_remove ts1 ts2 t hsn, all_remove ts1 ts2 t hsl,
        all_remove ts1 ts2 t hfl, ?_⟩
      intro i
      have h1 := hcb i
      rw [cntFires_decomp] at h1
      show c.posts.count i + cntFires (ts1 ++ ts2) i ≤ indK e c.idem i
      rw [cntFires_append2]
      omega
  | skip ts1 ts2 t h hst hidx =>
      rw [h] at hsn hsl hfl hcb
      refine ⟨hpn, hpl,
        all_update ts1 ts2 t _ hsn (hsn t (mem_mid ts1 ts2 t)),
        all_update ts1 ts2 t _ hsl (hsl t (mem_mid ts1 ts2 t)),
        all_update ts1 ts2 t _ hfl (hfl t (mem_mid ts1 ts2 t)), ?_⟩
      intro i
      have h1 := hcb i
      rw [cntFires_decomp] at h1
      show c.posts.count i +
        cntFires (ts1 ++ { t with idx := t.idx + 1 } :: ts2) i ≤ indK e c.idem i
      rw [cntFires_decomp]
      have hstage : ({ t with idx := t.idx + 1 } : Iter).stage = t.stage := rfl
      rw [hstage]
      omega
  | missing ts1 ts2 t h hst hidx hnew hsig =>
      rw [h] at hsn hsl hfl hcb
      refine ⟨hpn, hpl,
        all_update ts1 ts2 t _ hsn
          (insertKey_nodup t.idx t.snap (hsn t (mem_mid ts1 ts2 t))),
        all_update ts1 ts2 t _ hsl
          (insertKey_lt t.idx e.nlevels t.snap (hsl t (mem_mid ts1 ts2 t)) hidx),
        all_update ts1 ts2 t _ hfl (hfl t (mem_mid ts1 ts2 t)), ?_⟩
      intro i
      have h1 := hcb i
      rw [cntFires_decomp] at h1
      show c.posts.count i + cntFires (ts1 ++
        { t with
          idx := t.idx + 1,
          snap := insertKey t.idx t.snap } :: ts2) i ≤ indK e c.idem i
      rw [cntFires_decomp]
      have hstage : ({ t with
          idx := t.idx + 1,
          snap := insertKey t.idx t.snap } : Iter).stage = t.stage := rfl
      rw [hstage]
      omega
  | markSkip ts1 ts2 t sig h hst hidx hnew hsig hdup =>
      rw [h] at hsn hsl hfl hcb
      refine ⟨hpn, hpl,
        all_update ts1 ts2 t _ hsn (hsn t (mem_mid ts1 ts2 t)),
        all_update ts1 ts2 t _ hsl (hsl t (mem_mid ts1 ts2 t)),
        all_update ts1 ts2 t _ hfl (hfl t (mem_mid ts1 ts2 t)), ?_⟩
      intro i
      have h1 := hcb i
      rw [cntFires_decomp] at h1
      show c.posts.count i +
        cntFires (ts1 ++ { t with idx := t.idx + 1 } :: ts2) i ≤ indK e c.idem i
      rw [cntFires_decomp]
      have hstage : ({ t with idx := t.idx + 1 } : Iter).stage = t.stage := rfl
      rw [hstage]
      omega
  | markOk ts1 ts2 t sig h hst hidx hnew hsig hfresh =>
      rw [h] at hsn hsl hfl hcb
      refine ⟨hpn, hpl,
        all_update ts1 ts2 t _ hsn (hsn t (mem_mid ts1 ts2 t)),
        all_update ts1 ts2 t _ hsl (hsl t (mem_mid ts1 ts2 t)),
        ?_, ?_⟩
      · refine all_update ts1 ts2 t _ hfl ?_
        intro i k hik
        cases hik
        exact hidx
      · intro j
        have h1 := hcb j
        rw [cntFires_decomp, hst] at h1
        have hscan : (if isFireAt j Stage.scan = true then 1 else 0) = 0 := rfl
        rw [hscan, Nat.add_zero] at h1
        show c.posts.count j + cntFires (ts1 ++
          { t with stage := .fire t.idx (idemKey e t.idx sig) } :: ts2) j ≤
            indK e (idemKey e t.idx sig :: c.idem) j
        rw [cntFires_decomp]
        have hstage :
            ({ t with stage := .fire t.idx (idemKey e t.idx sig) } : Iter).stage =
              Stage.fire t.idx (idemKey e t.idx sig) := rfl
        rw [hstage]
        simp only [isFireAt, decide_eq_true_eq]
        by_cases hj : t.idx = j
        · subst hj
          rw [if_pos rfl]
          have hk : mkKey e t.idx = some (idemKey e t.idx sig) := by
            rw [mkKey, hsig]; rfl
          have hz : indK e c.idem t.idx = 0 := by simp [indK, hk, hfresh]
          have ho : indK e (idemKey e t.idx sig :: c.idem) t.idx = 1 := by
            simp [indK, hk]
          rw [hz] at h1
          rw [ho]
          omega
        · rw [if_neg hj]
          have hm := indK_mono e (idemKey e t.idx sig) c.idem j
          omega
  | fire ts1 ts2 t i k h hst =>
      rw [h] at hsn hsl hfl hcb
      have hilt : i < e.nlevels := hfl t (mem_mid ts1 ts2 t) i k hst
      refine ⟨hpn, hpl,
        all_update ts1 ts2 t _ hsn
          (insertKey_nodup i t.snap (hsn t (mem_mid ts1 ts2 t))),
        all_update ts1 ts2 t _ hsl
          (insertKey_lt i e.nlevels t.snap (hsl t (mem_mid ts1 ts2 t)) hilt),
        ?_, ?_⟩
      · refine all_update ts1 ts2 t _ hfl ?_
        intro i' k' hik
        cases hik
      · intro j
        have h1 := hcb j
        rw [cntFires_decomp, hst] at h1
        simp only [isFireAt, decide_eq_true_eq] at h1
        show (i :: c.posts).count j + cntFires (ts1 ++
          { t with
            stage := .scan,
            idx := i + 1,
            snap := insertKey i t.snap } :: ts2) j ≤ indK e c.idem j
        rw [cntFires_decomp, List.count_cons]
        have hstage : ({ t with
            stage := Stage.scan,
            idx := i + 1,
            snap := insertKey i t.snap } : Iter).stage = Stage.scan := rfl
        rw [hstage]
        have hscan : (if isFireAt j Stage.scan = true then 1 else 0) = 0 := rfl
        rw [hscan, Nat.add_zero]
        simp only [beq_iff_eq]
        by_cases hij : i = j
        · subst hij
          rw [if_pos rfl] at h1
          rw [if_pos rfl]
          omega
        · rw [if_neg hij] at h1
          rw [if_neg hij]
          omega
  | writeBack ts1 ts2 t h hst hidx =>
      rw [h] at hsn hsl hfl hcb
      refine ⟨hsn t (mem_mid ts1 ts2 t), hsl t (mem_mid ts1 ts2 t),
        all_remove ts1 ts2 t hsn, all_remove ts1 ts2 t hsl,
        all_remove ts1 ts2 t hfl, ?_⟩
      intro i
      have h1 := hcb i
      rw [cntFires_decomp, hst] at h1
      show c.posts.count i + cntFires (ts1 ++ ts2) i ≤ indK e c.idem i
      rw [cntFires_append2]
      have hscan : (if isFireAt i Stage.scan = true then 1 else 0) = 0 := rfl
      rw [hscan, Nat.add_zero] at h1
      omega

/-- C1: every configuration the monitor transition system can reach keeps the
arm's placed_levels no larger than the number of levels, and for every level
index the post_signed_order call site has been reached at most once in the
process lifetime, regardless of overlapping iterations of the same arm. -/
theorem monitor_safety (e : ArmEnv) (c : MonCfg) (i : Nat)
    (h : MonReachable e c) :
    c.placed.length ≤ e.nlevels ∧ c.posts.count i ≤ 1 := by
  have hinv : MonInv e c := by
    induction h with
    | refl => exact MonInv_init e
    | tail hsteps hstep ih => exact MonInv_step e _ _ ih hstep
  constructor
  · have hsub : c.placed.toFinset ⊆ Finset.range e.nlevels := by
      intro x hx
      rw [List.mem_toFinset] at hx
      exact Finset.mem_range.mpr (hinv.placed_lt x hx)
    have hcard := Finset.card_le_card hsub
    rw [Finset.card_range, List.toFinset_card_of_nodup hinv.placed_nodup]
      at hcard
    exact hcard
  · have h1 := hinv.count_bound i
    have h2 := indK_le_one e c.idem i
    omega

def c1Env : ArmEnv := ⟨"tp1".toList, 3, fun _ => none⟩

def c1Cfg : MonCfg := ⟨[], [], [], [⟨[], 0, .scan⟩]⟩

theorem monitor_safety_witness :
    MonReachable c1Env c1Cfg ∧
      c1Cfg.placed.length ≤ c1Env.nlevels ∧ c1Cfg.posts.count 0 ≤ 1 := by
  have hreach : MonReachable c1Env c1Cfg :=
    Relation.ReflTransGen.single (MonStep.spawn monInit)
  exact ⟨hreach, monitor_safety c1Env c1Cfg 0 hreach⟩

end OpiWeb
